import Mathlib

/-!
Shallow embedding of the Download Sorter Firefox extension (background
script and options page), covering the rule-matching and download-routing
core: extension-pattern compilation and matching, filename/extension
resolution from URLs, folder-name sanitization, tracking-URL
classification, the downloadable-file decision, rule validation in
storage, and deduplicated download dispatch.

JavaScript strings are modelled as `List Char`; browser builtins used by
the source (`String.prototype` methods, the WHATWG `URL` parser, the
constructed `RegExp` objects) are modelled for the inputs the source
feeds them, as noted on each definition.
-/

set_option autoImplicit false

namespace DS

/-- JavaScript string, modelled as a list of characters. -/
abbrev JStr := List Char

/-- Coerce a Lean string literal to the JavaScript string model. -/
def str (s : String) : JStr := s.data

/-- Models `String.prototype.toLowerCase` on the ASCII range (the only
characters the source's patterns, extensions and hostnames use). -/
def lowerChar (c : Char) : Char :=
  if 65 ≤ c.toNat ∧ c.toNat ≤ 90 then Char.ofNat (c.toNat + 32) else c

def lowerStr (s : JStr) : JStr := s.map lowerChar

/-- Characters matched by the JavaScript `\s` class and trimmed by
`String.prototype.trim` (ASCII whitespace plus no-break space). -/
def isJsSpace (c : Char) : Bool :=
  c ∈ ([' ', '\t', '\n', '\r', '\x0b', '\x0c', ' '] : List Char)

/-- Models `String.prototype.startsWith`. -/
def startsWithStr : JStr → JStr → Bool
  | _, [] => true
  | [], _ :: _ => false
  | c :: s, p :: ps => c == p && startsWithStr s ps

/-- Models `String.prototype.includes` (substring containment). -/
def containsStr : JStr → JStr → Bool
  | [], t => startsWithStr [] t
  | c :: rest, t => startsWithStr (c :: rest) t || containsStr rest t

/-- Models `String.prototype.endsWith`. -/
def endsWithStr (s t : JStr) : Bool := startsWithStr s.reverse t.reverse

/-- Models `String.prototype.split(c)`; `splitOnChar c "" = [""]` as in
JavaScript. -/
def splitOnChar (c : Char) : JStr → List JStr
  | [] => [[]]
  | x :: xs =>
    let r := splitOnChar c xs
    if x == c then [] :: r
    else
      match r with
      | [] => [[x]]
      | h :: t => (x :: h) :: t

/-- Models `String.prototype.trim`. -/
def trimStr (s : JStr) : JStr :=
  ((s.dropWhile isJsSpace).reverse.dropWhile isJsSpace).reverse

/-! ### FileMatcherService.getFileExtension -/

/-- The substring after the last `'.'` of a string, if the string contains
a dot (the `lastIndexOf('.')` computation of
`FileMatcherService.getFileExtension`). -/
def extAfterLastDot : JStr → Option JStr
  | [] => none
  | c :: rest =>
    match extAfterLastDot rest with
    | some e => some e
    | none => if c == '.' then some rest else none

/-- `FileMatcherService.getFileExtension`: lowercased substring after the
last dot; empty if the filename is empty or has no dot. -/
def getFileExtension (filename : JStr) : JStr :=
  if filename = [] then []
  else
    match extAfterLastDot filename with
    | none => []
    | some e => lowerStr e

/-! ### FileMatcherService.createRegexPattern / matches

The source compiles a pattern string into a `RegExp`: lowercase, strip
whitespace, turn `,` into alternation, turn `*` into `[a-z0-9]*`, anchor
each alternative with `^...$`.  The resulting regex is modelled as a list
of anchored alternatives, each a list of tokens: over the validated
pattern alphabet `[a-zA-Z0-9,.*]` (plus whitespace, which is stripped),
every remaining character is a regex literal except `.` (the regex
any-character) and `*` (expanded to `[a-z0-9]*`). -/

inductive Tok where
  | lit (c : Char)
  | dot
  | star
deriving DecidableEq

def charToTok (c : Char) : Tok :=
  if c == '*' then .star else if c == '.' then .dot else .lit c

/-- Characters matched by the `[a-z0-9]` class that the source substitutes
for `*`. -/
def isLowerAlnum (c : Char) : Bool :=
  (97 ≤ c.toNat && c.toNat ≤ 122) || (48 ≤ c.toNat && c.toNat ≤ 57)

/-- Line terminators, which the regex `.` does not match. -/
def isLineTerm (c : Char) : Bool :=
  c ∈ (['\n', '\r', ' ', ' '] : List Char)

/-- `FileMatcherService.createRegexPattern`, as the list of anchored
alternatives of the constructed regex. -/
def createRegexPattern (extensionPattern : JStr) : List (List Tok) :=
  (splitOnChar ','
      ((lowerStr extensionPattern).filter (fun c => !(isJsSpace c)))).map
    (fun alt => alt.map charToTok)

/-- Matching one anchored alternative against the whole string (the
semantics of `^t₁t₂…tₙ$` with backtracking). -/
def matchToks : List Tok → JStr → Bool
  | [], [] => true
  | [], _ :: _ => false
  | .lit _ :: _, [] => false
  | .lit c :: ts, x :: xs => x == c && matchToks ts xs
  | .dot :: _, [] => false
  | .dot :: ts, x :: xs => !(isLineTerm x) && matchToks ts xs
  | .star :: ts, s =>
    matchToks ts s ||
      (match s with
       | [] => false
       | x :: xs => isLowerAlnum x && matchToks (.star :: ts) xs)
termination_by ts s => (s.length, ts.length)
decreasing_by
  all_goals simp_wf
  all_goals omega

/-- `RegExp.prototype.test` on the compiled pattern: some anchored
alternative matches the entire extension. -/
def regexTest (pats : List (List Tok)) (s : JStr) : Bool :=
  pats.any (fun ts => matchToks ts s)

/-- `FileMatcherService.matches`: empty pattern or filename never match;
extension-less filenames never match; patterns containing `*` or `,` go
through the compiled regex, any other pattern is compared for exact
equality against the (already lowercased) file extension after
lowercasing and trimming the pattern. -/
def matchesPattern (extensionPattern filename : JStr) : Bool :=
  if extensionPattern = [] || filename = [] then false
  else
    let fileExtension := getFileExtension filename
    if fileExtension = [] then false
    else if extensionPattern.contains '*' || extensionPattern.contains ',' then
      regexTest (createRegexPattern extensionPattern) fileExtension
    else fileExtension == trimStr (lowerStr extensionPattern)

/-! ### SecurityUtils / OptionsSecurityUtils -/

/-- The characters removed by the sanitizers' first step
(`replace(/[<>:"\/\\|?*]/g, '')`). -/
def forbiddenChars : List Char := ['<', '>', ':', '"', '/', '\\', '|', '?', '*']

def stripForbidden (s : JStr) : JStr := s.filter (fun c => !(forbiddenChars.contains c))

/-- `replace(/\.\./g, '')`: one left-to-right pass removing non-overlapping
occurrences of `".."`. -/
def stripDotDot : JStr → JStr
  | [] => []
  | [c] => [c]
  | c1 :: c2 :: rest =>
    if c1 == '.' && c2 == '.' then stripDotDot rest
    else c1 :: stripDotDot (c2 :: rest)

/-- `replace(/^\./, '')`: remove a single leading dot. -/
def stripLeadingDot : JStr → JStr
  | [] => []
  | c :: rest => if c == '.' then rest else c :: rest

/-- The shared sanitization chain of `SecurityUtils.sanitizeFolderName`
(bg.js) and `OptionsSecurityUtils.sanitizeFolderName` (options.js):
strip forbidden characters, strip `".."` occurrences, strip one leading
dot, trim, truncate to 100 characters. -/
def sanitizePipeline (s : JStr) : JStr :=
  (trimStr (stripLeadingDot (stripDotDot (stripForbidden s)))).take 100

/-- `SecurityUtils.sanitizeFolderName` (bg.js) on string input: the
sanitization chain with fallback `"downloads"` when the result is empty
(`|| 'downloads'`). -/
def sanitizeFolderName (folderName : JStr) : JStr :=
  if sanitizePipeline folderName = [] then str "downloads"
  else sanitizePipeline folderName

/-- `OptionsSecurityUtils.sanitizeFolderName` (options.js) on string
input: the same chain, but with no fallback — an empty result stays
empty. -/
def optionsSanitizeFolderName (folderName : JStr) : JStr :=
  sanitizePipeline folderName

/-- Characters admitted by the bg.js validation regex
`^[a-zA-Z0-9,.*]+$`. -/
def isPatternChar (c : Char) : Bool :=
  (97 ≤ c.toNat && c.toNat ≤ 122) || (65 ≤ c.toNat && c.toNat ≤ 90) ||
    (48 ≤ c.toNat && c.toNat ≤ 57) || c == ',' || c == '.' || c == '*'

/-- `SecurityUtils.isValidExtensionPattern` (bg.js) on string input:
length at most 200 and full match of `^[a-zA-Z0-9,.*]+$` (the `+`
requires at least one character). -/
def isValidExtensionPatternStr (pattern : JStr) : Bool :=
  pattern.length ≤ 200 && !pattern.isEmpty && pattern.all isPatternChar

/-! ### The WHATWG URL parser, as used by the source

The source calls `new URL(url)` and reads `protocol`, `hostname`,
`pathname` and `search`.  Modelled for hierarchical
`scheme://host[:port]/path?query#fragment` URLs: any string not of that
shape fails to parse (as the `catch` branches of the source assume). -/

structure URLParts where
  protocol : JStr
  hostname : JStr
  pathname : JStr
  search : JStr
deriving DecidableEq

/-- Split at the first occurrence of a character: the part before it and,
when it occurs, the part after it. -/
def splitFirst (c : Char) : JStr → JStr × Option JStr
  | [] => ([], none)
  | x :: xs =>
    if x == c then ([], some xs)
    else
      let r := splitFirst c xs
      (x :: r.1, r.2)

/-- Take characters up to (excluding) the first occurrence of any
delimiter; also return the rest, starting at the delimiter. -/
def takeUntilAny (delims : List Char) : JStr → JStr × JStr
  | [] => ([], [])
  | x :: xs =>
    if delims.contains x then ([], x :: xs)
    else
      let r := takeUntilAny delims xs
      (x :: r.1, r.2)

def isSchemeChar (c : Char) : Bool :=
  c.isAlpha || ('0' ≤ c && c ≤ '9') || c == '+' || c == '-' || c == '.'

/-- Models `new URL(url)` for hierarchical URLs: a scheme (letter followed
by scheme characters), `"//"`, a non-empty host (port stripped,
lowercased), then pathname (`"/"` when absent), query and fragment. -/
def parseURL (url : JStr) : Option URLParts :=
  match splitFirst ':' url with
  | (_, none) => none
  | ([], some _) => none
  | (c :: cs, some rest) =>
    if !(c.isAlpha && cs.all isSchemeChar) then none
    else if !startsWithStr rest (str "//") then none
    else
      let afterSlashes := rest.drop 2
      let (authority, r1) := takeUntilAny ['/', '?', '#'] afterSlashes
      let host := (splitFirst ':' authority).1
      if host = [] then none
      else
        let (pathname, r2) :=
          match r1 with
          | '/' :: _ => takeUntilAny ['?', '#'] r1
          | _ => (str "/", r1)
        let search :=
          match r2 with
          | '?' :: _ =>
            let q := (takeUntilAny ['#'] r2).1
            if q = ['?'] then [] else q
          | _ => []
        some ⟨lowerStr (c :: cs) ++ [':'], lowerStr host, pathname, search⟩

/-- `SecurityUtils.isValidDownloadUrl`: the URL parses and its protocol is
`http:` or `https:`. -/
def isValidDownloadUrl (url : JStr) : Bool :=
  match parseURL url with
  | none => false
  | some u => u.protocol == str "http:" || u.protocol == str "https:"

/-! ### FileMatcherService: URL-derived filenames and the
downloadable-file decision -/

/-- `FileMatcherService.getFilenameFromUrl`: last path segment of the
parsed URL, query and fragment parts stripped, defaulting to
`"download"` when empty or unparseable. -/
def getFilenameFromUrl (url : JStr) : JStr :=
  match parseURL url with
  | none => str "download"
  | some u =>
    let filename := (splitOnChar '/' u.pathname).getLastD []
    let cleanFilename :=
      (splitOnChar '#' ((splitOnChar '?' filename).headD [])).headD []
    if cleanFilename = [] then str "download" else cleanFilename

/-- The allowlist of downloadable extensions in
`FileMatcherService.isLikelyDownloadableFile`. -/
def downloadableExtensions : List JStr :=
  [str "pdf", str "doc", str "docx", str "txt", str "rtf", str "odt",
   str "jpg", str "jpeg", str "png", str "gif", str "webp", str "svg",
   str "bmp", str "ico",
   str "mp4", str "avi", str "mkv", str "mov", str "wmv", str "flv",
   str "webm",
   str "mp3", str "wav", str "flac", str "aac", str "m4a", str "ogg",
   str "zip", str "7z", str "tar", str "gz", str "rar", str "bz2",
   str "exe", str "msi", str "dmg", str "deb", str "rpm", str "pkg",
   str "xml", str "json", str "csv", str "xls", str "xlsx", str "ppt",
   str "pptx",
   str "iso", str "img", str "bin", str "apk", str "jar"]

/-- The denylist of streaming/subtitle extensions in
`FileMatcherService.isLikelyDownloadableFile`. -/
def excludedExtensions : List JStr :=
  [str "vtt", str "srt", str "ass", str "m3u8", str "ts"]

/-- `FileMatcherService.isLikelyDownloadableFile`: the denylist is checked
first; then the extension must be non-empty and on the allowlist (the
source returns the falsy `''` when the extension is empty, modelled as
`false`). -/
def isLikelyDownloadableFile (url : JStr) : Bool :=
  if excludedExtensions.contains (getFileExtension (getFilenameFromUrl url))
  then false
  else !(getFileExtension (getFilenameFromUrl url)).isEmpty &&
    downloadableExtensions.contains (getFileExtension (getFilenameFromUrl url))

/-! ### Rules and rule resolution -/

structure Rule where
  id : JStr
  extension : JStr
  foldername : JStr
deriving DecidableEq

/-- The `DEFAULT_RULES` constant of bg.js. -/
def DEFAULT_RULES : List Rule :=
  [⟨str "default-1", str "jpg,jpeg,gif,png,webp,svg", str "images"⟩,
   ⟨str "default-2", str "zip,7z,tar,gz,rar", str "compression"⟩,
   ⟨str "default-3", str "exe,msi,dmg,deb", str "executables"⟩,
   ⟨str "default-4", str "pdf,doc,docx,txt,rtf", str "documents"⟩,
   ⟨str "default-5", str "mp4,avi,mkv,mov,wmv", str "videos"⟩,
   ⟨str "default-6", str "mp3,wav,flac,aac,m4a", str "audio"⟩]

def DEFAULT_FOLDER : JStr := str "downloads"

/-- The rule-resolution loop of
`FileMatcherService.determineTargetFolder`, as a pure function of the
rule list, the default folder and the resolved filename: the first rule
whose pattern matches wins, otherwise the default folder. -/
def determineTargetFolder (rules : List Rule) (defaultFolder : JStr)
    (filename : JStr) : JStr :=
  match rules with
  | [] => defaultFolder
  | rule :: rest =>
    if matchesPattern rule.extension filename then rule.foldername
    else determineTargetFolder rest defaultFolder filename

/-! ### DownloadInterceptor.isTrackingOrAnalyticsUrl -/

/-- The fixed tracking-domain denylist of
`DownloadInterceptor.isTrackingOrAnalyticsUrl`. -/
def trackingDomains : List JStr :=
  [str "google-analytics.com",
   str "googletagmanager.com",
   str "googlesyndication.com",
   str "doubleclick.net",
   str "criteo.com",
   str "facebook.com",
   str "fbcdn.net",
   str "media.net",
   str "ezoic",
   str "rubiconproject.com",
   str "openx.net",
   str "yieldmo.com",
   str "3lift.com",
   str "amazon-adsystem.com",
   str "dnacdn.net",
   str "onetag-sys.com",
   str "token.rubiconproject.com",
   str "eb2.3lift.com",
   str "hbx.media.net",
   str "gum.criteo.com",
   str "ag.gbc.criteo.com",
   str "gem.gbc.criteo.com",
   str "securepubads.g.doubleclick.net",
   str "pagead2.googlesyndication.com",
   str "go.ezodn.com"]

/-- `DownloadInterceptor.isTrackingOrAnalyticsUrl`: some denylist entry is
a substring of the lowercased hostname, or the hostname ends with
`"." ++ entry`; unparseable URLs classify as not tracking. -/
def isTrackingOrAnalyticsUrl (url : JStr) : Bool :=
  match parseURL url with
  | none => false
  | some u =>
    trackingDomains.any (fun domain =>
      containsStr (lowerStr u.hostname) domain ||
        endsWithStr (lowerStr u.hostname) ('.' :: domain))

/-! ### StorageManager.getRules

The value read back from storage (or produced by `JSON.parse`) is an
arbitrary JavaScript value.  `JSVal` models the shapes the validation
logic discriminates on; objects are modelled by their three fields
relevant to rules (each possibly absent). -/

inductive JSVal where
  | vstr (s : JStr)
  | vnum (n : Int)
  | vbool (b : Bool)
  | vnull
  | vundef
  | varr (elems : List JSVal)
  | vobj (idF extensionF foldernameF : Option JSVal)

/-- JavaScript truthiness. -/
def jsTruthy : JSVal → Bool
  | .vstr s => !s.isEmpty
  | .vnum n => n != 0
  | .vbool b => b
  | .vnull => false
  | .vundef => false
  | .varr _ => true
  | .vobj _ _ _ => true

/-- `typeof v === 'object'` (true for arrays, plain objects, and
`null`). -/
def jsTypeofObject : JSVal → Bool
  | .varr _ => true
  | .vobj _ _ _ => true
  | .vnull => true
  | _ => false

/-- Property access `v.id` (absent properties and non-objects give
`undefined`; arrays have none of the rule properties). -/
def idField : JSVal → JSVal
  | .vobj i _ _ => i.getD .vundef
  | _ => .vundef

def extensionField : JSVal → JSVal
  | .vobj _ e _ => e.getD .vundef
  | _ => .vundef

def foldernameField : JSVal → JSVal
  | .vobj _ _ f => f.getD .vundef
  | _ => .vundef

mutual

/-- Models the JavaScript `String()` conversion. -/
def jsToString : JSVal → JStr
  | .vstr s => s
  | .vnum n => (toString n).data
  | .vbool true => str "true"
  | .vbool false => str "false"
  | .vnull => str "null"
  | .vundef => str "undefined"
  | .varr elems => jsArrToString elems
  | .vobj _ _ _ => str "[object Object]"

/-- `Array.prototype.toString`: elements joined with `','`, `null` and
`undefined` elements rendered empty. -/
def jsArrToString : List JSVal → JStr
  | [] => []
  | [v] =>
    match v with
    | .vnull => []
    | .vundef => []
    | v => jsToString v
  | v :: rest =>
    (match v with
     | .vnull => []
     | .vundef => []
     | v => jsToString v) ++ ',' :: jsArrToString rest

end

/-- `SecurityUtils.isValidExtensionPattern` on a JavaScript value: the
`typeof pattern !== 'string'` guard rejects non-strings. -/
def isValidExtensionPattern : JSVal → Bool
  | .vstr s => isValidExtensionPatternStr s
  | _ => false

/-- `SecurityUtils.sanitizeFolderName` on a JavaScript value: the
`typeof folderName !== 'string'` guard yields `"downloads"`. -/
def sanitizeFolderNameVal : JSVal → JStr
  | .vstr s => sanitizeFolderName s
  | _ => str "downloads"

/-- The value kept for the `extension` field in `StorageManager.getRules`:
the pattern string when valid, otherwise `''`. -/
def validatedExtension (v : JSVal) : JStr :=
  if isValidExtensionPattern v then
    match v with
    | .vstr s => s
    | _ => []
  else []

/-- The validation pipeline of `StorageManager.getRules` applied to the
parsed value: arrays are filtered to truthy objects, mapped to sanitized
rules, and filtered to rules with non-empty extension and foldername;
anything that is not an array yields `DEFAULT_RULES`. -/
def validateRules : JSVal → List Rule
  | .varr l =>
    ((l.filter (fun r => jsTruthy r && jsTypeofObject r)).map (fun r =>
        { id := (jsToString (if jsTruthy (idField r) then idField r
                             else .vstr [])).take 50
          extension := validatedExtension (extensionField r)
          foldername := sanitizeFolderNameVal (foldernameField r) })).filter
      (fun rule => !rule.extension.isEmpty && !rule.foldername.isEmpty)
  | _ => DEFAULT_RULES

/-- `StorageManager.getRules`: the stored value may be absent, a JSON
string (fed to `JSON.parse`, whose failure falls back to
`DEFAULT_RULES`), or a structured value.  `JSON.parse` is an external
builtin; it is left abstract as the `parse` argument. -/
def getRules (parse : JStr → Option JSVal) (stored : Option JSVal) :
    List Rule :=
  match stored with
  | none => validateRules .vundef
  | some (.vstr s) =>
    match parse s with
    | none => DEFAULT_RULES
    | some v => validateRules v
  | some v => validateRules v

/-! ### DownloadInterceptor.initiateControlledDownload

The dispatcher's process-wide state is the `pendingDownloads` dedup set;
the external `browser.downloads.download` call is the `issue` argument,
which either yields a download id or rejects.  The function returns the
result reported to the caller, the new state, and the list of download
requests it issued. -/

structure DownloadOptions where
  url : JStr
  filename : JStr
  conflictAction : JStr
deriving DecidableEq

structure InterceptorState where
  pendingDownloads : List JStr
deriving DecidableEq

/-- `DownloadInterceptor.initiateControlledDownload`: reject unsafe URLs;
return `null` without a request when the dedup key `url +
(suggestedFilename || '')` is pending; otherwise register the key,
resolve the target path, and issue one download request — on rejection
of the request, delete the key and report `null`. -/
def initiateControlledDownload (rules : List Rule) (defaultFolder : JStr)
    (issue : DownloadOptions → Except Unit Nat) (st : InterceptorState)
    (url : JStr) (suggestedFilename : Option JStr) :
    Option Nat × InterceptorState × List DownloadOptions :=
  if !isValidDownloadUrl url then (none, st, [])
  else
    let downloadKey := url ++ (suggestedFilename.getD [])
    if st.pendingDownloads.contains downloadKey then (none, st, [])
    else
      let st1 : InterceptorState := ⟨downloadKey :: st.pendingDownloads⟩
      let filename :=
        match suggestedFilename with
        | some s => if s = [] then getFilenameFromUrl url else s
        | none => getFilenameFromUrl url
      let targetFolder := determineTargetFolder rules defaultFolder filename
      let sanitizedFilename :=
        let s := sanitizeFolderName filename
        if s = [] then str "download" else s
      let targetPath := targetFolder ++ '/' :: sanitizedFilename
      let downloadOptions : DownloadOptions :=
        ⟨url, targetPath, str "uniquify"⟩
      match issue downloadOptions with
      | .ok downloadId => (some downloadId, st1, [downloadOptions])
      | .error _ =>
        (none, ⟨st1.pendingDownloads.erase downloadKey⟩, [downloadOptions])

/-! ### Auxiliary definitions used by the statements -/

/-- The fast-path comparison of `FileMatcherService.matches` for patterns
without `*` and `,`: `fileExtension === extensionPattern.toLowerCase().trim()`. -/
def fastPathCompare (extensionPattern fileExtension : JStr) : Bool :=
  fileExtension == trimStr (lowerStr extensionPattern)

/-- ASCII letters and digits — the pattern alphabet minus `,`, `.`, `*`
and whitespace, used to state the corrected equivalence claims. -/
def isAsciiAlnum (c : Char) : Bool :=
  (97 ≤ c.toNat && c.toNat ≤ 122) || (65 ≤ c.toNat && c.toNat ≤ 90) ||
    (48 ≤ c.toNat && c.toNat ≤ 57)

/-- No two adjacent dots (no occurrence of `".."` as a substring, stated
recursively for proofs about `stripDotDot`). -/
def noDD : JStr → Bool
  | [] => true
  | [_] => true
  | c1 :: c2 :: rest => !(c1 == '.' && c2 == '.') && noDD (c2 :: rest)

/-! ## Lemmas: strings -/

theorem startsWithStr_iff (s t : JStr) :
    startsWithStr s t = true ↔ ∃ u, s = t ++ u := by
  induction t generalizing s with
  | nil => simp only [startsWithStr, List.nil_append, true_iff]; exact ⟨s, rfl⟩
  | cons p ps ih =>
    cases s with
    | nil => simp [startsWithStr]
    | cons c cs =>
      simp only [startsWithStr, Bool.and_eq_true, beq_iff_eq, ih,
        List.cons_append, List.cons.injEq]
      constructor
      · rintro ⟨rfl, u, rfl⟩; exact ⟨u, rfl, rfl⟩
      · rintro ⟨u, rfl, rfl⟩; exact ⟨rfl, u, rfl⟩

theorem containsStr_iff (s t : JStr) :
    containsStr s t = true ↔ ∃ x y, s = x ++ t ++ y := by
  induction s with
  | nil =>
    simp only [containsStr, startsWithStr_iff]
    constructor
    · rintro ⟨u, hu⟩
      exact ⟨[], u, hu⟩
    · rintro ⟨x, y, hxy⟩
      have hx := List.append_eq_nil.mp hxy.symm
      have ht := (List.append_eq_nil.mp hx.1).2
      exact ⟨[], by simp [ht]⟩
  | cons c cs ih =>
    simp only [containsStr, Bool.or_eq_true, startsWithStr_iff, ih]
    constructor
    · rintro (⟨u, hu⟩ | ⟨x, y, hxy⟩)
      · exact ⟨[], u, by simp [hu]⟩
      · exact ⟨c :: x, y, by simp [hxy]⟩
    · rintro ⟨x, y, hxy⟩
      cases x with
      | nil => exact Or.inl ⟨y, by simpa using hxy⟩
      | cons a as =>
        simp only [List.cons_append, List.cons.injEq] at hxy
        exact Or.inr ⟨as, y, hxy.2⟩

theorem endsWithStr_iff (s t : JStr) :
    endsWithStr s t = true ↔ ∃ u, s = u ++ t := by
  simp only [endsWithStr, startsWithStr_iff]
  constructor
  · rintro ⟨u, hu⟩
    refine ⟨u.reverse, ?_⟩
    have := congrArg List.reverse hu
    simpa using this
  · rintro ⟨u, rfl⟩
    exact ⟨u.reverse, by simp⟩

theorem splitOnChar_of_not_mem (c : Char) (s : JStr) (h : c ∉ s) :
    splitOnChar c s = [s] := by
  induction s with
  | nil => rfl
  | cons x xs ih =>
    have hne : ¬c = x ∧ c ∉ xs := by simpa [List.mem_cons, not_or] using h
    have hx : (x == c) = false := by
      simp [beq_eq_false_iff_ne]
      exact fun hh => hne.1 hh.symm
    have hxs : c ∉ xs := hne.2
    simp [splitOnChar, hx, ih hxs]

theorem splitOnChar_append (c : Char) (a rest : JStr) (h : c ∉ a) :
    splitOnChar c (a ++ c :: rest) = a :: splitOnChar c rest := by
  induction a with
  | nil => simp [splitOnChar]
  | cons x xs ih =>
    have hne : ¬c = x ∧ c ∉ xs := by simpa [List.mem_cons, not_or] using h
    have hx : (x == c) = false := by
      simp [beq_eq_false_iff_ne]
      exact fun hh => hne.1 hh.symm
    have hxs : c ∉ xs := hne.2
    simp [splitOnChar, hx, ih hxs]

theorem dropWhile_of_no (p : Char → Bool) (s : JStr)
    (h : ∀ c ∈ s, p c = false) : s.dropWhile p = s := by
  cases s with
  | nil => rfl
  | cons x xs => simp [List.dropWhile_cons, h x (List.mem_cons_self x xs)]

theorem trimStr_of_no_space (s : JStr) (h : ∀ c ∈ s, isJsSpace c = false) :
    trimStr s = s := by
  unfold trimStr
  rw [dropWhile_of_no _ _ h,
    dropWhile_of_no _ _ (fun c hc => h c (List.mem_reverse.mp hc)),
    List.reverse_reverse]

theorem mem_trimStr (s : JStr) (c : Char) (h : c ∈ trimStr s) : c ∈ s := by
  unfold trimStr at h
  rw [List.mem_reverse] at h
  have h1 := List.dropWhile_sublist (l := (s.dropWhile isJsSpace).reverse)
    (p := isJsSpace)
  have h2 := List.dropWhile_sublist (l := s) (p := isJsSpace)
  have := h1.subset h
  rw [List.mem_reverse] at this
  exact h2.subset this

/-! ## Lemmas: the sanitization chain -/

theorem noDD_iff (s : JStr) :
    noDD s = true ↔ containsStr s (str "..") = false := by
  induction s using noDD.induct with
  | case1 => simp [noDD, containsStr, startsWithStr, str]
  | case2 c => simp [noDD, containsStr, startsWithStr, str]
  | case3 c1 c2 rest ih =>
    cases hb1 : (c1 == '.') <;> cases hb2 : (c2 == '.') <;>
      simp [noDD, containsStr, startsWithStr, str, hb1, hb2, ih]

theorem noDD_of_part (t x y : JStr) (h : noDD (x ++ t ++ y) = true) :
    noDD t = true := by
  rw [noDD_iff] at h ⊢
  by_contra hc
  have hct : containsStr t (str "..") = true := by
    cases hct : containsStr t (str "..") with
    | false => exact absurd hct hc
    | true => rfl
  rcases (containsStr_iff _ _).mp hct with ⟨p, q, hpq⟩
  have : containsStr (x ++ t ++ y) (str "..") = true := by
    rw [containsStr_iff]
    exact ⟨x ++ p, q ++ y, by simp [hpq]⟩
  rw [this] at h
  exact Bool.true_eq_false.mp h

theorem dropWhile_exists_append (p : Char → Bool) (s : JStr) :
    ∃ u, s = u ++ s.dropWhile p := by
  induction s with
  | nil => exact ⟨[], rfl⟩
  | cons c cs ih =>
    by_cases hc : p c = true
    · rcases ih with ⟨u, hu⟩
      exact ⟨c :: u, by simp [List.dropWhile_cons, hc, ← hu]⟩
    · exact ⟨[], by simp [List.dropWhile_cons, hc]⟩

theorem noDD_trimStr (s : JStr) (h : noDD s = true) :
    noDD (trimStr s) = true := by
  unfold trimStr
  rcases dropWhile_exists_append isJsSpace s with ⟨u, hu⟩
  have h1 : noDD (s.dropWhile isJsSpace) = true := by
    refine noDD_of_part _ u [] ?_
    rw [List.append_nil, ← hu]; exact h
  rcases dropWhile_exists_append isJsSpace (s.dropWhile isJsSpace).reverse
    with ⟨v, hv⟩
  have h2 : s.dropWhile isJsSpace =
      ((s.dropWhile isJsSpace).reverse.dropWhile isJsSpace).reverse ++
        v.reverse := by
    have := congrArg List.reverse hv
    simpa using this
  refine noDD_of_part _ [] v.reverse ?_
  rw [List.nil_append, ← h2]; exact h1

theorem noDD_take (n : Nat) (s : JStr) (h : noDD s = true) :
    noDD (s.take n) = true :=
  noDD_of_part _ [] (s.drop n) (by simpa using h)

theorem stripDotDot_cons_of_ne (c : Char) (r : JStr)
    (h : (c == '.') = false) : stripDotDot (c :: r) = c :: stripDotDot r := by
  cases r with
  | nil => rfl
  | cons b t => simp [stripDotDot, h]

theorem stripDotDot_cons_dd (c1 c2 : Char) (rest : JStr)
    (h : (c1 == '.' && c2 == '.') = true) :
    stripDotDot (c1 :: c2 :: rest) = stripDotDot rest := by
  simp [stripDotDot, h]

theorem stripDotDot_cons_ndd (c1 c2 : Char) (rest : JStr)
    (h : ¬((c1 == '.' && c2 == '.') = true)) :
    stripDotDot (c1 :: c2 :: rest) = c1 :: stripDotDot (c2 :: rest) := by
  simp [stripDotDot, h]

theorem noDD_stripDotDot (s : JStr) : noDD (stripDotDot s) = true := by
  induction s using stripDotDot.induct with
  | case1 => rfl
  | case2 c => rfl
  | case3 c1 c2 rest hdd ih => rw [stripDotDot_cons_dd c1 c2 rest hdd]; exact ih
  | case4 c1 c2 rest hdd ih =>
    rw [stripDotDot_cons_ndd c1 c2 rest hdd]
    by_cases hc2 : (c2 == '.') = true
    · have hc1 : (c1 == '.') = false := by
        cases hb : (c1 == '.') with
        | false => rfl
        | true => exact absurd (by simp [hb, hc2]) hdd
      cases hz : stripDotDot (c2 :: rest) with
      | nil => rfl
      | cons b t =>
        rw [hz] at ih
        simpa [noDD, hc1] using ih
    · rw [stripDotDot_cons_of_ne c2 rest (by simpa using hc2)] at ih ⊢
      simpa [noDD, hc2] using ih

theorem stripDotDot_of_noDD (s : JStr) (h : noDD s = true) :
    stripDotDot s = s := by
  induction s using stripDotDot.induct with
  | case1 => rfl
  | case2 c => rfl
  | case3 c1 c2 rest hdd ih =>
    have hsplit : (!(c1 == '.' && c2 == '.')) = true ∧ noDD (c2 :: rest) = true := by
      simpa [noDD] using h
    rw [hdd] at hsplit
    simp at hsplit
  | case4 c1 c2 rest hdd ih =>
    have hsplit : (!(c1 == '.' && c2 == '.')) = true ∧ noDD (c2 :: rest) = true := by
      simpa [noDD] using h
    rw [stripDotDot_cons_ndd c1 c2 rest hdd, ih hsplit.2]

theorem mem_stripDotDot (s : JStr) (c : Char) (h : c ∈ stripDotDot s) :
    c ∈ s := by
  induction s using stripDotDot.induct with
  | case1 => simp [stripDotDot] at h
  | case2 d => simp [stripDotDot] at h; simp [h]
  | case3 c1 c2 rest hdd ih =>
    rw [stripDotDot_cons_dd c1 c2 rest hdd] at h
    exact List.mem_cons_of_mem _ (List.mem_cons_of_mem _ (ih h))
  | case4 c1 c2 rest hdd ih =>
    rw [stripDotDot_cons_ndd c1 c2 rest hdd] at h
    rcases List.mem_cons.mp h with h | h
    · exact h ▸ List.mem_cons_self _ _
    · exact List.mem_cons_of_mem _ (ih h)

theorem mem_stripLeadingDot (s : JStr) (c : Char)
    (h : c ∈ stripLeadingDot s) : c ∈ s := by
  cases s with
  | nil => simp [stripLeadingDot] at h
  | cons a r =>
    by_cases ha : (a == '.') = true
    · rw [show stripLeadingDot (a :: r) = r by simp [stripLeadingDot, ha]] at h
      exact List.mem_cons_of_mem _ h
    · rwa [show stripLeadingDot (a :: r) = a :: r
        by simp [stripLeadingDot]; intro hh; simp [hh] at ha] at h

theorem noDD_stripLeadingDot (s : JStr) (h : noDD s = true) :
    noDD (stripLeadingDot s) = true := by
  cases s with
  | nil => exact h
  | cons a r =>
    by_cases ha : (a == '.') = true
    · rw [show stripLeadingDot (a :: r) = r by simp [stripLeadingDot, ha]]
      refine noDD_of_part r [a] [] ?_
      simpa using h
    · rwa [show stripLeadingDot (a :: r) = a :: r by
        simp only [stripLeadingDot, if_neg ha]]

theorem mem_sanitizePipeline (s : JStr) (c : Char)
    (h : c ∈ sanitizePipeline s) : c ∈ stripForbidden s :=
  mem_stripDotDot _ _ (mem_stripLeadingDot _ _
    (mem_trimStr _ _ (List.take_subset _ _ h)))

theorem sanitizePipeline_forbidden (s : JStr) (c : Char)
    (h : c ∈ sanitizePipeline s) : forbiddenChars.contains c = false := by
  have := List.mem_filter.mp (mem_sanitizePipeline s c h)
  simpa using this.2

theorem length_sanitizePipeline_le (s : JStr) :
    (sanitizePipeline s).length ≤ 100 := by
  unfold sanitizePipeline
  rw [List.length_take]
  omega

theorem noDD_sanitizePipeline (s : JStr) :
    noDD (sanitizePipeline s) = true :=
  noDD_take _ _ (noDD_trimStr _ (noDD_stripLeadingDot _ (noDD_stripDotDot _)))

theorem sanitizeFolderName_ne_nil (s : JStr) : sanitizeFolderName s ≠ [] := by
  unfold sanitizeFolderName
  by_cases h : sanitizePipeline s = [] <;> simp [h, str]

theorem sanitizeFolderName_length_le (s : JStr) :
    (sanitizeFolderName s).length ≤ 100 := by
  unfold sanitizeFolderName
  by_cases h : sanitizePipeline s = []
  · simp [h, str]
  · simpa [h] using length_sanitizePipeline_le s

theorem sanitizeFolderName_forbidden (s : JStr) (c : Char)
    (h : c ∈ sanitizeFolderName s) : forbiddenChars.contains c = false := by
  unfold sanitizeFolderName at h
  by_cases hp : sanitizePipeline s = []
  · rw [if_pos hp] at h
    rw [show str "downloads" = ['d', 'o', 'w', 'n', 'l', 'o', 'a', 'd', 's']
      from rfl] at h
    simp only [List.mem_cons, List.not_mem_nil, or_false] at h
    rcases h with rfl | rfl | rfl | rfl | rfl | rfl | rfl | rfl | rfl <;> decide
  · rw [if_neg hp] at h
    exact sanitizePipeline_forbidden s c h

theorem sanitizeFolderName_no_dotdot (s : JStr) :
    containsStr (sanitizeFolderName s) (str "..") = false := by
  unfold sanitizeFolderName
  by_cases hp : sanitizePipeline s = []
  · rw [if_pos hp]; decide
  · rw [if_neg hp]
    exact (noDD_iff _).mp (noDD_sanitizePipeline s)

theorem stripForbidden_of_clean (s : JStr)
    (h : ∀ c ∈ s, forbiddenChars.contains c = false) : stripForbidden s = s :=
  List.filter_eq_self.mpr (fun c hc => by rw [h c hc]; rfl)

theorem take_head_eq (n : Nat) (w : JStr) (c : Char) (t : JStr)
    (h : w.take n = c :: t) : ∃ t2, w = c :: t2 := by
  cases w with
  | nil => simp at h
  | cons a w2 =>
    cases n with
    | zero => simp at h
    | succ m =>
      rw [List.take_succ_cons] at h
      injection h with h1 _
      exact ⟨w2, by rw [h1]⟩

theorem stripLeadingDot_of_head_ne (s : JStr)
    (h : ∀ c t, s = c :: t → (c == '.') = false) : stripLeadingDot s = s := by
  cases s with
  | nil => rfl
  | cons a r => simp [stripLeadingDot, h a r rfl]

theorem stripLeadingDot_head_ne (z : JStr) (hz : noDD z = true) (c : Char)
    (t : JStr) (h : stripLeadingDot z = c :: t) : (c == '.') = false := by
  cases z with
  | nil => simp [stripLeadingDot] at h
  | cons a r =>
    cases ha : (a == '.') with
    | true =>
      rw [show stripLeadingDot (a :: r) = r by simp [stripLeadingDot, ha]] at h
      subst h
      have hsplit : (!(a == '.' && c == '.')) = true ∧ noDD (c :: t) = true := by
        simpa [noDD] using hz
      cases hb : (c == '.') with
      | false => rfl
      | true => rw [ha, hb] at hsplit; simp at hsplit
    | false =>
      rw [show stripLeadingDot (a :: r) = a :: r by
        simp [stripLeadingDot, ha]] at h
      injection h with h1 _
      rwa [← h1]

theorem sanitizePipeline_idem_wsfree (x : JStr)
    (hx : ∀ c ∈ x, isJsSpace c = false) :
    sanitizePipeline (sanitizePipeline x) = sanitizePipeline x := by
  have memw : ∀ c ∈ stripLeadingDot (stripDotDot (stripForbidden x)), c ∈ x :=
    fun c hc =>
      (List.mem_filter.mp (mem_stripDotDot _ _ (mem_stripLeadingDot _ _ hc))).1
  have htrim : trimStr (stripLeadingDot (stripDotDot (stripForbidden x))) =
      stripLeadingDot (stripDotDot (stripForbidden x)) :=
    trimStr_of_no_space _ (fun c hc => hx c (memw c hc))
  have hyeq : sanitizePipeline x =
      (stripLeadingDot (stripDotDot (stripForbidden x))).take 100 := by
    unfold sanitizePipeline
    rw [htrim]
  have hnodd : noDD (stripDotDot (stripForbidden x)) = true :=
    noDD_stripDotDot _
  have h3 : stripLeadingDot (sanitizePipeline x) = sanitizePipeline x := by
    refine stripLeadingDot_of_head_ne _ (fun c t hct => ?_)
    rw [hyeq] at hct
    rcases take_head_eq _ _ _ _ hct with ⟨t2, ht2⟩
    exact stripLeadingDot_head_ne _ hnodd c t2 ht2
  have h1 : stripForbidden (sanitizePipeline x) = sanitizePipeline x :=
    stripForbidden_of_clean _ (fun c hc => sanitizePipeline_forbidden x c hc)
  have h2 : stripDotDot (sanitizePipeline x) = sanitizePipeline x :=
    stripDotDot_of_noDD _ (noDD_sanitizePipeline x)
  have hyws : ∀ c ∈ sanitizePipeline x, isJsSpace c = false :=
    fun c hc => hx c (List.mem_filter.mp (mem_sanitizePipeline x c hc)).1
  have h4 : trimStr (sanitizePipeline x) = sanitizePipeline x :=
    trimStr_of_no_space _ hyws
  have h5 : (sanitizePipeline x).take 100 = sanitizePipeline x :=
    List.take_of_length_le (length_sanitizePipeline_le x)
  have hstep : sanitizePipeline (sanitizePipeline x) =
      (trimStr (stripLeadingDot (stripDotDot
        (stripForbidden (sanitizePipeline x))))).take 100 := rfl
  rw [hstep, h1, h2, h3, h4]
  exact h5

/-! ## Lemmas: character classes and pattern compilation -/

theorem toNat_ofNat_valid (n : Nat) (hv : n.isValidChar) :
    (Char.ofNat n).toNat = n := by
  unfold Char.ofNat
  rw [dif_pos hv]
  simp [Char.toNat, Char.ofNatAux, UInt32.toNat, BitVec.toNat_ofNatLt]

theorem char_beq_false_of_toNat_ne (c d : Char) (h : c.toNat ≠ d.toNat) :
    (c == d) = false := by
  simp only [beq_eq_false_iff_ne, Ne]
  intro hcd
  exact h (by rw [hcd])

theorem lowerChar_toNat_alnum (c : Char) (h : isAsciiAlnum c = true) :
    (97 ≤ (lowerChar c).toNat ∧ (lowerChar c).toNat ≤ 122) ∨
      (48 ≤ (lowerChar c).toNat ∧ (lowerChar c).toNat ≤ 57) := by
  simp only [isAsciiAlnum, Bool.or_eq_true, Bool.and_eq_true,
    decide_eq_true_eq] at h
  unfold lowerChar
  by_cases hc : 65 ≤ c.toNat ∧ c.toNat ≤ 90
  · rw [if_pos hc, toNat_ofNat_valid _ (Or.inl (by omega))]
    omega
  · rw [if_neg hc]
    omega

theorem isJsSpace_false_of_lowerAlnum (c : Char) (h : isLowerAlnum c = true) :
    isJsSpace c = false := by
  simp only [isLowerAlnum, Bool.or_eq_true, Bool.and_eq_true,
    decide_eq_true_eq] at h
  cases hm : isJsSpace c with
  | false => rfl
  | true =>
    exfalso
    have hmem := of_decide_eq_true hm
    simp only [List.mem_cons, List.not_mem_nil, or_false] at hmem
    rcases hmem with rfl | rfl | rfl | rfl | rfl | rfl | rfl
    all_goals revert h
    all_goals decide

theorem lowerChar_alnum_props (c : Char) (h : isAsciiAlnum c = true) :
    isLowerAlnum (lowerChar c) = true ∧ (lowerChar c == ',') = false ∧
      (lowerChar c == '*') = false ∧ (lowerChar c == '.') = false ∧
      isJsSpace (lowerChar c) = false := by
  have hr := lowerChar_toNat_alnum c h
  have hal : isLowerAlnum (lowerChar c) = true := by
    simp only [isLowerAlnum, Bool.or_eq_true, Bool.and_eq_true,
      decide_eq_true_eq]
    omega
  refine ⟨hal, ?_, ?_, ?_, isJsSpace_false_of_lowerAlnum _ hal⟩
  · exact char_beq_false_of_toNat_ne _ _ (by show _ ≠ 44; omega)
  · exact char_beq_false_of_toNat_ne _ _ (by show _ ≠ 42; omega)
  · exact char_beq_false_of_toNat_ne _ _ (by show _ ≠ 46; omega)

theorem isJsSpace_false_of_asciiAlnum (c : Char) (h : isAsciiAlnum c = true) :
    isJsSpace c = false := by
  simp only [isAsciiAlnum, Bool.or_eq_true, Bool.and_eq_true,
    decide_eq_true_eq] at h
  cases hm : isJsSpace c with
  | false => rfl
  | true =>
    exfalso
    have hmem := of_decide_eq_true hm
    simp only [List.mem_cons, List.not_mem_nil, or_false] at hmem
    rcases hmem with rfl | rfl | rfl | rfl | rfl | rfl | rfl
    all_goals revert h
    all_goals decide

theorem charToTok_lit (x : Char) (hs : (x == '*') = false)
    (hd : (x == '.') = false) : charToTok x = .lit x := by
  simp [charToTok, hs, hd]

theorem matchToks_lits (l e : JStr) :
    matchToks (l.map Tok.lit) e = true ↔ e = l := by
  induction l generalizing e with
  | nil => cases e <;> simp [matchToks]
  | cons c cs ih =>
    cases e with
    | nil => simp [matchToks]
    | cons x xs => simp [matchToks, ih, List.cons.injEq]

theorem lowerStr_all_props (p : JStr) (hp : p.all isAsciiAlnum = true) :
    ∀ c ∈ lowerStr p, isLowerAlnum c = true ∧ (c == ',') = false ∧
      (c == '*') = false ∧ (c == '.') = false ∧ isJsSpace c = false := by
  intro c hc
  rcases List.mem_map.mp hc with ⟨c0, hc0, rfl⟩
  exact (lowerChar_alnum_props c0 (List.all_eq_true.mp hp c0 hc0)).imp id
    (fun h => h)

theorem clean_of_no_space (q : JStr) (h : ∀ c ∈ q, isJsSpace c = false) :
    q.filter (fun c => !(isJsSpace c)) = q :=
  List.filter_eq_self.mpr (fun c hc => by rw [h c hc]; rfl)

theorem comma_not_mem_lowerStr (p : JStr) (hp : p.all isAsciiAlnum = true) :
    ',' ∉ lowerStr p := by
  intro hmem
  have := (lowerStr_all_props p hp ',' hmem).2.1
  simp at this

theorem map_charToTok_lits (q : JStr)
    (h : ∀ c ∈ q, (c == '*') = false ∧ (c == '.') = false) :
    q.map charToTok = q.map Tok.lit :=
  List.map_congr_left (fun c hc => charToTok_lit c (h c hc).1 (h c hc).2)

theorem createRegexPattern_alnum (p : JStr) (hp : p.all isAsciiAlnum = true) :
    createRegexPattern p = [(lowerStr p).map Tok.lit] := by
  unfold createRegexPattern
  rw [clean_of_no_space _ (fun c hc => (lowerStr_all_props p hp c hc).2.2.2.2),
    splitOnChar_of_not_mem ',' _ (comma_not_mem_lowerStr p hp)]
  simp only [List.map_cons, List.map_nil]
  rw [map_charToTok_lits _ (fun c hc =>
    ⟨(lowerStr_all_props p hp c hc).2.2.1, (lowerStr_all_props p hp c hc).2.2.2.1⟩)]

theorem trimStr_lowerStr_alnum (p : JStr) (hp : p.all isAsciiAlnum = true) :
    trimStr (lowerStr p) = lowerStr p :=
  trimStr_of_no_space _ (fun c hc => (lowerStr_all_props p hp c hc).2.2.2.2)

theorem trimStr_alnum (p : JStr) (hp : p.all isAsciiAlnum = true) :
    trimStr p = p :=
  trimStr_of_no_space _ (fun c hc =>
    isJsSpace_false_of_asciiAlnum c (List.all_eq_true.mp hp c hc))

/-! ## Claim C3 -/

/-- Claim C3, counterexample: for the pattern `"a.c"`, which contains no `*` and
no `,`, the regex path treats the `.` as the regex any-character and
accepts the extension `"abc"`, while the fast-path exact comparison
rejects it — so the claimed equivalence fails. -/
theorem c3_fastPath_regexPath_disagree :
    (str "a.c").contains '*' = false ∧ (str "a.c").contains ',' = false ∧
      regexTest (createRegexPattern (str "a.c")) (str "abc") = true ∧
      fastPathCompare (str "a.c") (str "abc") = false := by
  refine ⟨by decide, by decide, ?_, by decide⟩
  rw [show createRegexPattern (str "a.c") = [[Tok.lit 'a', Tok.dot, Tok.lit 'c']]
    from by decide]
  simp [regexTest, matchToks, str, isLineTerm]

/-- Claim C3 (amended): for every pattern consisting only of ASCII letters and
digits (no `*`, `,`, `.`, or whitespace — `.` breaks the equivalence)
and every lowercase extension string, the fast-path comparison, the
regex path, and the case-insensitive exact comparison against the
trimmed pattern all agree. -/
theorem c3_fastPath_regexPath_agree_alnum (p e : JStr)
    (hp : p.all isAsciiAlnum = true) (he : lowerStr e = e) :
    fastPathCompare p e = regexTest (createRegexPattern p) e ∧
      fastPathCompare p e = (lowerStr e == lowerStr (trimStr p)) := by
  have h1 : fastPathCompare p e = (e == lowerStr p) := by
    unfold fastPathCompare
    rw [trimStr_lowerStr_alnum p hp]
  constructor
  · rw [h1, createRegexPattern_alnum p hp, Bool.eq_iff_iff]
    simp only [regexTest, List.any_cons, List.any_nil, Bool.or_false,
      matchToks_lits, beq_iff_eq]
  · rw [h1, trimStr_alnum p hp, he]

/-- Claim C3 witness: the three agreeing values at the concrete pattern `"jpg"`
and extension `"jpg"`. -/
theorem c3_fastPath_regexPath_agree_alnum_witness :
    fastPathCompare (str "jpg") (str "jpg") =
        regexTest (createRegexPattern (str "jpg")) (str "jpg") ∧
      fastPathCompare (str "jpg") (str "jpg") =
        (lowerStr (str "jpg") == lowerStr (trimStr (str "jpg"))) :=
  c3_fastPath_regexPath_agree_alnum (str "jpg") (str "jpg") (by decide)
    (by decide)

/-! ## Claim C4 -/

/-- Claim C4, counterexample: `"a.c"` is a literal (wildcard-free) term, but in
the comma-separated pattern `"a.c,png,gif"` the compiled matcher accepts
the extension `"azc"`, which is not case-insensitively equal to any of
the three terms — so "true iff `x` exactly equals a, b, or c" fails. -/
theorem c4_comma_pattern_dot_term_counterexample :
    regexTest (createRegexPattern (str "a.c,png,gif")) (str "azc") = true ∧
      (lowerStr (str "azc") == lowerStr (str "a.c")) = false ∧
      (lowerStr (str "azc") == lowerStr (str "png")) = false ∧
      (lowerStr (str "azc") == lowerStr (str "gif")) = false := by
  refine ⟨?_, by decide, by decide, by decide⟩
  rw [show createRegexPattern (str "a.c,png,gif") =
      [[Tok.lit 'a', Tok.dot, Tok.lit 'c'],
        [Tok.lit 'p', Tok.lit 'n', Tok.lit 'g'],
        [Tok.lit 'g', Tok.lit 'i', Tok.lit 'f']] from by decide]
  simp [regexTest, matchToks, str, isLineTerm]

/-- Claim C4 (amended): for every comma-separated pattern `a ++ "," ++ b ++ ","
++ c` whose terms consist only of ASCII letters and digits (dots in a
term act as the regex any-character and break exactness), testing a
lowercase extension `x` against the compiled pattern is true iff `x`
is case-insensitively equal to `a`, `b`, or `c`; the match consumes the
entire extension. -/
theorem c4_comma_pattern_exact_match (a b c x : JStr)
    (ha : a.all isAsciiAlnum = true) (hb : b.all isAsciiAlnum = true)
    (hc : c.all isAsciiAlnum = true) (hx : lowerStr x = x) :
    regexTest (createRegexPattern (a ++ ',' :: b ++ ',' :: c)) x =
      ((lowerStr x == lowerStr a) || (lowerStr x == lowerStr b) ||
        (lowerStr x == lowerStr c)) := by
  have hcomma : lowerChar ',' = ',' := by decide
  have hlow : lowerStr (a ++ ',' :: b ++ ',' :: c) =
      lowerStr a ++ ',' :: (lowerStr b ++ ',' :: lowerStr c) := by
    simp [lowerStr, hcomma]
  have hsp : ∀ q : JStr, q.all isAsciiAlnum = true →
      ∀ d ∈ lowerStr q, isJsSpace d = false :=
    fun q hq d hd => (lowerStr_all_props q hq d hd).2.2.2.2
  have hclean : (lowerStr (a ++ ',' :: b ++ ',' :: c)).filter
      (fun d => !(isJsSpace d)) = lowerStr (a ++ ',' :: b ++ ',' :: c) := by
    refine clean_of_no_space _ (fun d hd => ?_)
    rw [hlow] at hd
    rcases List.mem_append.mp hd with hd | hd
    · exact hsp a ha d hd
    · rcases List.mem_cons.mp hd with rfl | hd
      · decide
      · rcases List.mem_append.mp hd with hd | hd
        · exact hsp b hb d hd
        · rcases List.mem_cons.mp hd with rfl | hd
          · decide
          · exact hsp c hc d hd
  have hsplit : splitOnChar ',' (lowerStr (a ++ ',' :: b ++ ',' :: c)) =
      [lowerStr a, lowerStr b, lowerStr c] := by
    rw [hlow, splitOnChar_append ',' _ _ (comma_not_mem_lowerStr a ha),
      splitOnChar_append ',' _ _ (comma_not_mem_lowerStr b hb),
      splitOnChar_of_not_mem ',' _ (comma_not_mem_lowerStr c hc)]
  have hmap : ∀ q : JStr, q.all isAsciiAlnum = true →
      (lowerStr q).map charToTok = (lowerStr q).map Tok.lit :=
    fun q hq => map_charToTok_lits _ (fun d hd =>
      ⟨(lowerStr_all_props q hq d hd).2.2.1,
        (lowerStr_all_props q hq d hd).2.2.2.1⟩)
  have hpat : createRegexPattern (a ++ ',' :: b ++ ',' :: c) =
      [(lowerStr a).map Tok.lit, (lowerStr b).map Tok.lit,
        (lowerStr c).map Tok.lit] := by
    unfold createRegexPattern
    rw [hclean, hsplit]
    simp only [List.map_cons, List.map_nil]
    rw [hmap a ha, hmap b hb, hmap c hc]
  rw [hpat, Bool.eq_iff_iff]
  simp only [regexTest, List.any_cons, List.any_nil, Bool.or_false,
    matchToks_lits, Bool.or_eq_true, beq_iff_eq, hx]
  tauto

/-- Claim C4 witness: the pattern `"jpg,png,gif"` matched against `"png"` (true)
via the amended theorem. -/
theorem c4_comma_pattern_exact_match_witness :
    regexTest (createRegexPattern (str "jpg,png,gif")) (str "png") =
      ((lowerStr (str "png") == lowerStr (str "jpg")) ||
        (lowerStr (str "png") == lowerStr (str "png")) ||
        (lowerStr (str "png") == lowerStr (str "gif"))) :=
  c4_comma_pattern_exact_match (str "jpg") (str "png") (str "gif")
    (str "png") (by decide) (by decide) (by decide) (by decide)

/-! ## Claim C1 -/

theorem matchesPattern_of_empty_ext (p f : JStr)
    (h : getFileExtension f = []) : matchesPattern p f = false := by
  unfold matchesPattern
  by_cases hpf : (decide (p = []) || decide (f = [])) = true
  · rw [if_pos hpf]
  · rw [if_neg hpf, h]
    simp

/-- Claim C1: for every ordered rule list, default folder and filename, the
resolved folder is the `foldername` of the first rule (in list order)
whose pattern matches the filename; if the filename has no extension, or
no rule matches, the default folder is returned — even when a later rule
would also have matched. -/
theorem c1_determineTargetFolder_first_match (rules : List Rule)
    (defaultFolder filename : JStr) :
    (getFileExtension filename = [] →
      determineTargetFolder rules defaultFolder filename = defaultFolder) ∧
      ((∀ r ∈ rules, matchesPattern r.extension filename = false) →
        determineTargetFolder rules defaultFolder filename = defaultFolder) ∧
      (∀ i : Nat, ∀ hi : i < rules.length,
        matchesPattern (rules.get ⟨i, hi⟩).extension filename = true →
        (∀ j : Nat, ∀ hj : j < i,
          matchesPattern (rules.get ⟨j, Nat.lt_trans hj hi⟩).extension
            filename = false) →
        determineTargetFolder rules defaultFolder filename =
          (rules.get ⟨i, hi⟩).foldername) := by
  refine ⟨?_, ?_, ?_⟩
  · intro hext
    induction rules with
    | nil => rfl
    | cons r rest ih =>
      simp only [determineTargetFolder,
        matchesPattern_of_empty_ext r.extension filename hext]
      simpa using ih
  · intro hall
    induction rules with
    | nil => rfl
    | cons r rest ih =>
      simp only [determineTargetFolder, hall r (List.mem_cons_self r rest)]
      simp only [Bool.false_eq_true, if_false]
      exact ih (fun r' hr' => hall r' (List.mem_cons_of_mem r hr'))
  · intro i
    induction rules generalizing i with
    | nil => intro hi; exact absurd hi (Nat.not_lt_zero i)
    | cons r rest ih =>
      intro hi hmatch hbefore
      cases i with
      | zero =>
        simp only [List.get] at hmatch
        simp [determineTargetFolder, hmatch]
      | succ n =>
        have h0 : matchesPattern r.extension filename = false := by
          have := hbefore 0 (Nat.succ_pos n)
          simpa [List.get] using this
        simp only [determineTargetFolder, h0, Bool.false_eq_true, if_false]
        have hn : n < rest.length := Nat.lt_of_succ_lt_succ hi
        have := ih n hn (by simpa [List.get] using hmatch)
          (fun j hj => by
            have := hbefore (j + 1) (Nat.succ_lt_succ hj)
            simpa [List.get] using this)
        simpa [List.get] using this

/-- Claim C1 witness: with two rules both matching `jpg`, resolving `"a.jpg"`
yields the first rule's folder `"images"`, via the theorem at index 0. -/
theorem c1_determineTargetFolder_first_match_witness :
    determineTargetFolder
      [⟨str "r1", str "jpg", str "images"⟩,
        ⟨str "r2", str "jpg", str "photos"⟩]
      (str "downloads") (str "a.jpg") = str "images" :=
  (c1_determineTargetFolder_first_match
      [⟨str "r1", str "jpg", str "images"⟩,
        ⟨str "r2", str "jpg", str "photos"⟩]
      (str "downloads") (str "a.jpg")).2.2 0 (by decide) (by decide)
    (fun j hj => absurd hj (Nat.not_lt_zero j))

/-! ## Claim C6 -/

/-- Claim C6: the navigation-path downloadable-file decision rejects every URL
whose resolved extension is on the streaming/subtitle denylist (the
denylist is checked first, so it takes precedence over the allowlist),
and also rejects every URL whose resolved extension is not on the
allowlist. -/
theorem c6_isLikelyDownloadableFile_rejects (url : JStr) :
    (excludedExtensions.contains
        (getFileExtension (getFilenameFromUrl url)) = true →
      isLikelyDownloadableFile url = false) ∧
      (downloadableExtensions.contains
          (getFileExtension (getFilenameFromUrl url)) = false →
        isLikelyDownloadableFile url = false) := by
  constructor
  · intro h
    unfold isLikelyDownloadableFile
    rw [if_pos h]
  · intro h
    unfold isLikelyDownloadableFile
    by_cases he : excludedExtensions.contains
        (getFileExtension (getFilenameFromUrl url)) = true
    · rw [if_pos he]
    · rw [if_neg he, h]
      simp

/-- Claim C6 witness: the spec's example — a navigation to
`https://example.com/video.m3u8` is rejected because `m3u8` is
denylisted. -/
theorem c6_isLikelyDownloadableFile_rejects_witness :
    isLikelyDownloadableFile (str "https://example.com/video.m3u8") = false :=
  (c6_isLikelyDownloadableFile_rejects
    (str "https://example.com/video.m3u8")).1 (by decide)

/-! ## Claim C5 -/

/-- Claim C5, counterexample: the hostname `fakedoubleclick.net` neither equals
nor is a subdomain of any denylisted entry, yet the classifier reports
the URL as tracking, because the source tests substring containment
(`hostname.includes(domain)`), not equality-or-subdomain. -/
theorem c5_isTracking_counterexample :
    isTrackingOrAnalyticsUrl (str "https://fakedoubleclick.net/x") = true ∧
      parseURL (str "https://fakedoubleclick.net/x") =
        some ⟨str "https:", str "fakedoubleclick.net", str "/x", []⟩ ∧
      trackingDomains.all (fun d =>
        !(str "fakedoubleclick.net" == d) &&
          !endsWithStr (str "fakedoubleclick.net") ('.' :: d)) = true := by
  refine ⟨by decide, by decide, by decide⟩

/-- Claim C5 (amended): the tracking classifier returns true iff the URL parses
and some denylisted entry occurs as a substring of the lowercased
hostname (equality and subdomain are special cases of this); the spec's
two examples hold: `https://doubleclick.net/x` is tracking,
`https://example.com/report.pdf` is not. -/
theorem c5_isTracking_iff_hostname_contains :
    (∀ url, parseURL url = none → isTrackingOrAnalyticsUrl url = false) ∧
      (∀ url u, parseURL url = some u →
        (isTrackingOrAnalyticsUrl url = true ↔
          ∃ d ∈ trackingDomains, ∃ x y,
            lowerStr u.hostname = x ++ d ++ y)) ∧
      isTrackingOrAnalyticsUrl (str "https://doubleclick.net/x") = true ∧
      isTrackingOrAnalyticsUrl (str "https://example.com/report.pdf") =
        false := by
  refine ⟨?_, ?_, by decide, by decide⟩
  · intro url h
    unfold isTrackingOrAnalyticsUrl
    rw [h]
  · intro url u h
    unfold isTrackingOrAnalyticsUrl
    rw [h]
    simp only [List.any_eq_true, Bool.or_eq_true]
    constructor
    · rintro ⟨d, hd, hcase⟩
      refine ⟨d, hd, ?_⟩
      rcases hcase with hc | he
      · exact (containsStr_iff _ _).mp hc
      · rcases (endsWithStr_iff _ _).mp he with ⟨p, hp⟩
        exact ⟨p ++ ['.'], [], by simp [hp]⟩
    · rintro ⟨d, hd, x, y, hxy⟩
      exact ⟨d, hd, Or.inl ((containsStr_iff _ _).mpr ⟨x, y, hxy⟩)⟩

/-- Claim C5 witness: a genuine subdomain of a denylisted entry classifies as
tracking, via the amended theorem. -/
theorem c5_isTracking_iff_hostname_contains_witness :
    isTrackingOrAnalyticsUrl (str "https://stats.doubleclick.net/a") = true :=
  (c5_isTracking_iff_hostname_contains.2.1
      (str "https://stats.doubleclick.net/a")
      ⟨str "https:", str "stats.doubleclick.net", str "/a", []⟩
      (by decide)).mpr
    ⟨str "doubleclick.net", by decide, str "stats.", [], by decide⟩

/-! ## Claim C7 -/

/-- Claim C7, counterexample: the claim's fallback clause fails for the
options-page sanitizer — `OptionsSecurityUtils.sanitizeFolderName`
returns the empty string on `"."` instead of falling back to
`"downloads"`, while the background variant does fall back. -/
theorem c7_options_sanitize_no_fallback :
    optionsSanitizeFolderName (str ".") = [] ∧
      ([] : JStr) ≠ str "downloads" ∧
      sanitizeFolderName (str ".") = str "downloads" := by
  refine ⟨by decide, by decide, by decide⟩

/-- Claim C7 (amended): both sanitizers strip the forbidden characters, strip
`".."` occurrences, strip one leading dot, trim, and truncate to 100
characters (the `sanitizePipeline` chain); the background variant falls
back to `"downloads"` when the result is empty, while the options-page
variant returns the empty string.  Consequently the background result is
never empty, is at most 100 characters, contains no forbidden character
and no `".."`. -/
theorem c7_sanitizeFolderName_spec (x : JStr) :
    sanitizeFolderName x =
        (if sanitizePipeline x = [] then str "downloads"
         else sanitizePipeline x) ∧
      optionsSanitizeFolderName x = sanitizePipeline x ∧
      sanitizeFolderName x ≠ [] ∧
      (sanitizeFolderName x).length ≤ 100 ∧
      (optionsSanitizeFolderName x).length ≤ 100 ∧
      (∀ c ∈ sanitizeFolderName x, forbiddenChars.contains c = false) ∧
      containsStr (sanitizeFolderName x) (str "..") = false :=
  ⟨rfl, rfl, sanitizeFolderName_ne_nil x, sanitizeFolderName_length_le x,
    length_sanitizePipeline_le x,
    fun c hc => sanitizeFolderName_forbidden x c hc,
    sanitizeFolderName_no_dotdot x⟩

/-- Claim C7 witness: the sanitized value of `"my<folder>"` and one instance of
the forbidden-character conjunct, via the theorem. -/
theorem c7_sanitizeFolderName_spec_witness :
    sanitizeFolderName (str "my<folder>") = str "myfolder" ∧
      forbiddenChars.contains 'm' = false :=
  ⟨by decide,
    (c7_sanitizeFolderName_spec (str "my<folder>")).2.2.2.2.2.1 'm'
      (by decide)⟩

/-! ## Claim C8 -/

/-- Claim C8, counterexample: sanitization is not idempotent — `" ."` sanitizes
to `"."` (the leading-dot strip runs before the trim), and sanitizing
`"."` again yields the fallback `"downloads"`. -/
theorem c8_sanitize_not_idempotent :
    sanitizeFolderName (sanitizeFolderName (str " .")) ≠
        sanitizeFolderName (str " .") ∧
      sanitizeFolderName (str " .") = str "." ∧
      sanitizeFolderName (sanitizeFolderName (str " .")) =
        str "downloads" := by
  refine ⟨by decide, by decide, by decide⟩

/-- Claim C8 (amended): sanitization is idempotent on every string containing no
whitespace (whitespace inputs can defeat it, because trimming runs after
the leading-dot strip and truncation can expose trailing whitespace). -/
theorem c8_sanitizeFolderName_idempotent_wsfree (x : JStr)
    (hx : ∀ c ∈ x, isJsSpace c = false) :
    sanitizeFolderName (sanitizeFolderName x) = sanitizeFolderName x := by
  by_cases hp : sanitizePipeline x = []
  · have h1 : sanitizeFolderName x = str "downloads" := by
      unfold sanitizeFolderName
      rw [if_pos hp]
    rw [h1]
    decide
  · have h1 : sanitizeFolderName x = sanitizePipeline x := by
      unfold sanitizeFolderName
      rw [if_neg hp]
    have hidem := sanitizePipeline_idem_wsfree x hx
    rw [h1]
    unfold sanitizeFolderName
    rw [hidem, if_neg hp]

/-- Claim C8 witness: idempotence at the concrete whitespace-free input
`"a..b"`, via the amended theorem. -/
theorem c8_sanitizeFolderName_idempotent_wsfree_witness :
    sanitizeFolderName (sanitizeFolderName (str "a..b")) =
      sanitizeFolderName (str "a..b") :=
  c8_sanitizeFolderName_idempotent_wsfree (str "a..b") (by decide)

/-! ## Claim C2 -/

/-- Claim C2: when a dispatch for the dedup key `url + suggestedFilename` is
already pending, a second dispatch returns null and issues no request:
for any first dispatch whose download issuance succeeds, the first call
issues exactly one request and returns its id, and an immediately
following dispatch with the identical `(url, suggestedFilename)` returns
null, leaves the state unchanged, and issues no request — so the two
calls together issue exactly one request. -/
theorem c2_dispatch_dedup (rules : List Rule) (defaultFolder : JStr)
    (issue : DownloadOptions → Except Unit Nat) (st : InterceptorState)
    (url : JStr) (suggestedFilename : Option JStr) (downloadId : Nat)
    (hvalid : isValidDownloadUrl url = true)
    (hnew : st.pendingDownloads.contains
      (url ++ suggestedFilename.getD []) = false)
    (hissue : ∀ o, issue o = Except.ok downloadId) :
    (initiateControlledDownload rules defaultFolder issue st url
        suggestedFilename).1 = some downloadId ∧
      (initiateControlledDownload rules defaultFolder issue st url
          suggestedFilename).2.2.length = 1 ∧
      initiateControlledDownload rules defaultFolder issue
          (initiateControlledDownload rules defaultFolder issue st url
            suggestedFilename).2.1 url suggestedFilename =
        (none,
          (initiateControlledDownload rules defaultFolder issue st url
            suggestedFilename).2.1, []) := by
  simp only [initiateControlledDownload, hvalid, Bool.not_true,
    Bool.false_eq_true, if_false, hnew, hissue]
  simp [List.contains_cons]

/-- Claim C2 witness: a concrete double dispatch of the same PDF URL with an
always-succeeding issuance — the second call yields null and no
request. -/
theorem c2_dispatch_dedup_witness :
    (initiateControlledDownload DEFAULT_RULES DEFAULT_FOLDER
        (fun _ => Except.ok 7) ⟨[]⟩ (str "https://example.com/a.pdf")
        none).1 = some 7 ∧
      (initiateControlledDownload DEFAULT_RULES DEFAULT_FOLDER
          (fun _ => Except.ok 7) ⟨[]⟩ (str "https://example.com/a.pdf")
          none).2.2.length = 1 ∧
      initiateControlledDownload DEFAULT_RULES DEFAULT_FOLDER
          (fun _ => Except.ok 7)
          (initiateControlledDownload DEFAULT_RULES DEFAULT_FOLDER
            (fun _ => Except.ok 7) ⟨[]⟩ (str "https://example.com/a.pdf")
            none).2.1 (str "https://example.com/a.pdf") none =
        (none,
          (initiateControlledDownload DEFAULT_RULES DEFAULT_FOLDER
            (fun _ => Except.ok 7) ⟨[]⟩ (str "https://example.com/a.pdf")
            none).2.1, []) :=
  c2_dispatch_dedup DEFAULT_RULES DEFAULT_FOLDER (fun _ => Except.ok 7)
    ⟨[]⟩ (str "https://example.com/a.pdf") none 7 (by decide) (by decide)
    (fun _ => rfl)

/-! ## Claim C9 -/

/-- Claim C9: when the underlying download issuance rejects, the dispatcher
reports null to the caller (no exception — the function is total and
returns `none`), removes the dedup key immediately, and a retry with the
same key then succeeds in issuing a new request. -/
theorem c9_dispatch_failure_releases_key (rules : List Rule)
    (defaultFolder : JStr) (issue : DownloadOptions → Except Unit Nat)
    (st : InterceptorState) (url : JStr) (suggestedFilename : Option JStr)
    (hvalid : isValidDownloadUrl url = true)
    (hnew : st.pendingDownloads.contains
      (url ++ suggestedFilename.getD []) = false)
    (hissue : ∀ o, issue o = Except.error ()) :
    (initiateControlledDownload rules defaultFolder issue st url
        suggestedFilename).1 = none ∧
      (initiateControlledDownload rules defaultFolder issue st url
          suggestedFilename).2.1.pendingDownloads.contains
        (url ++ suggestedFilename.getD []) = false ∧
      (initiateControlledDownload rules defaultFolder issue st url
          suggestedFilename).2.2.length = 1 ∧
      (∀ issue2 : DownloadOptions → Except Unit Nat, ∀ id2 : Nat,
        (∀ o, issue2 o = Except.ok id2) →
        (initiateControlledDownload rules defaultFolder issue2
            (initiateControlledDownload rules defaultFolder issue st url
              suggestedFilename).2.1 url suggestedFilename).1 =
          some id2) := by
  have hcall : ∃ req, initiateControlledDownload rules defaultFolder issue
      st url suggestedFilename = (none, ⟨st.pendingDownloads⟩, [req]) := by
    simp only [initiateControlledDownload, hvalid, Bool.not_true,
      Bool.false_eq_true, if_false, hnew, hissue]
    rw [List.erase_cons_head]
    exact ⟨_, rfl⟩
  rcases hcall with ⟨req, hcall⟩
  rw [hcall]
  refine ⟨rfl, hnew, rfl, ?_⟩
  intro issue2 id2 hissue2
  simp only [initiateControlledDownload, hvalid, Bool.not_true,
    Bool.false_eq_true, if_false, hnew, hissue2]

/-- Claim C9 witness: a concrete failing dispatch — null result, key released,
one (rejected) request issued, and a concrete retry succeeds. -/
theorem c9_dispatch_failure_releases_key_witness :
    (initiateControlledDownload DEFAULT_RULES DEFAULT_FOLDER
        (fun _ => Except.error ()) ⟨[]⟩ (str "https://example.com/a.pdf")
        none).1 = none ∧
      (initiateControlledDownload DEFAULT_RULES DEFAULT_FOLDER
          (fun _ => Except.error ()) ⟨[]⟩ (str "https://example.com/a.pdf")
          none).2.1.pendingDownloads.contains
        (str "https://example.com/a.pdf" ++ Option.getD none []) = false :=
  ⟨(c9_dispatch_failure_releases_key DEFAULT_RULES DEFAULT_FOLDER
      (fun _ => Except.error ()) ⟨[]⟩ (str "https://example.com/a.pdf")
      none (by decide) (by decide) (fun _ => rfl)).1,
    (c9_dispatch_failure_releases_key DEFAULT_RULES DEFAULT_FOLDER
      (fun _ => Except.error ()) ⟨[]⟩ (str "https://example.com/a.pdf")
      none (by decide) (by decide) (fun _ => rfl)).2.1⟩

/-! ## Claim C10 -/

theorem default_rules_invariant : ∀ r ∈ DEFAULT_RULES,
    r.extension ≠ [] ∧ r.extension.length ≤ 200 ∧
      r.extension.all isPatternChar = true ∧
      r.foldername ≠ [] ∧ r.foldername.length ≤ 100 ∧
      (∀ c ∈ r.foldername, forbiddenChars.contains c = false) ∧
      r.id.length ≤ 50 := by decide

theorem validateRules_invariant (v : JSVal) : ∀ r ∈ validateRules v,
    r.extension ≠ [] ∧ r.extension.length ≤ 200 ∧
      r.extension.all isPatternChar = true ∧
      r.foldername ≠ [] ∧ r.foldername.length ≤ 100 ∧
      (∀ c ∈ r.foldername, forbiddenChars.contains c = false) ∧
      r.id.length ≤ 50 := by
  intro r hr
  cases v with
  | varr l =>
    rw [show validateRules (.varr l) =
        ((l.filter (fun q => jsTruthy q && jsTypeofObject q)).map (fun q =>
            { id := (jsToString (if jsTruthy (idField q) then idField q
                                 else .vstr [])).take 50
              extension := validatedExtension (extensionField q)
              foldername := sanitizeFolderNameVal (foldernameField q) })).filter
          (fun rule => !rule.extension.isEmpty && !rule.foldername.isEmpty)
      from rfl] at hr
    rcases List.mem_filter.mp hr with ⟨hmem, hpred⟩
    rcases List.mem_map.mp hmem with ⟨orig, _, rfl⟩
    simp only [Bool.and_eq_true, Bool.not_eq_true', List.isEmpty_eq_false]
      at hpred
    have hext : validatedExtension (extensionField orig) ≠ [] := hpred.1
    have hextP : (validatedExtension (extensionField orig)).length ≤ 200 ∧
        (validatedExtension (extensionField orig)).all isPatternChar =
          true := by
      unfold validatedExtension at hext ⊢
      by_cases hv : isValidExtensionPattern (extensionField orig) = true
      · rw [if_pos hv] at hext ⊢
        cases hf : extensionField orig with
        | vstr s =>
          rw [hf] at hv
          have hs : isValidExtensionPatternStr s = true := hv
          have hs2 : (s.length ≤ 200 ∧ ¬s.isEmpty = true) ∧
              s.all isPatternChar = true := by
            simpa [isValidExtensionPatternStr, Bool.and_eq_true,
              decide_eq_true_eq] using hs
          show s.length ≤ 200 ∧ s.all isPatternChar = true
          exact ⟨hs2.1.1, hs2.2⟩
        | vnum n => rw [hf] at hv; exact absurd hv (by simp [isValidExtensionPattern])
        | vbool b => rw [hf] at hv; exact absurd hv (by simp [isValidExtensionPattern])
        | vnull => rw [hf] at hv; exact absurd hv (by simp [isValidExtensionPattern])
        | vundef => rw [hf] at hv; exact absurd hv (by simp [isValidExtensionPattern])
        | varr es => rw [hf] at hv; exact absurd hv (by simp [isValidExtensionPattern])
        | vobj a b c => rw [hf] at hv; exact absurd hv (by simp [isValidExtensionPattern])
      · rw [if_neg hv] at hext
        exact absurd rfl hext
    have hdl : sanitizeFolderNameVal (foldernameField orig) =
          str "downloads" ∨
        ∃ s, sanitizeFolderNameVal (foldernameField orig) =
          sanitizeFolderName s := by
      cases foldernameField orig with
      | vstr s => exact Or.inr ⟨s, rfl⟩
      | vnum n => exact Or.inl rfl
      | vbool b => exact Or.inl rfl
      | vnull => exact Or.inl rfl
      | vundef => exact Or.inl rfl
      | varr es => exact Or.inl rfl
      | vobj a b c => exact Or.inl rfl
    have hfoldP : sanitizeFolderNameVal (foldernameField orig) ≠ [] ∧
        (sanitizeFolderNameVal (foldernameField orig)).length ≤ 100 ∧
        (∀ c ∈ sanitizeFolderNameVal (foldernameField orig),
          forbiddenChars.contains c = false) := by
      rcases hdl with hd | ⟨s, hs⟩
      · rw [hd]
        exact ⟨by decide, by decide, by decide⟩
      · rw [hs]
        exact ⟨sanitizeFolderName_ne_nil s, sanitizeFolderName_length_le s,
          fun c hc => sanitizeFolderName_forbidden s c hc⟩
    exact ⟨hext, hextP.1, hextP.2, hfoldP.1, hfoldP.2.1, hfoldP.2.2,
      by simp⟩
  | vstr s => exact default_rules_invariant r (by simpa [validateRules] using hr)
  | vnum n => exact default_rules_invariant r (by simpa [validateRules] using hr)
  | vbool b => exact default_rules_invariant r (by simpa [validateRules] using hr)
  | vnull => exact default_rules_invariant r (by simpa [validateRules] using hr)
  | vundef => exact default_rules_invariant r (by simpa [validateRules] using hr)
  | vobj a b c =>
    exact default_rules_invariant r (by simpa [validateRules] using hr)

/-- Claim C10: whatever the stored value under the `rules` key is (absent, a
JSON string under any possible parse outcome, an array with arbitrary
entries, or malformed data), every rule returned by
`StorageManager.getRules` has a non-empty extension pattern over the
validation alphabet of length at most 200, a non-empty foldername of
length at most 100 free of forbidden characters, and an id of at most 50
characters; invalid entries never appear. -/
theorem c10_getRules_invariant (parse : JStr → Option JSVal)
    (stored : Option JSVal) : ∀ r ∈ getRules parse stored,
    r.extension ≠ [] ∧ r.extension.length ≤ 200 ∧
      r.extension.all isPatternChar = true ∧
      r.foldername ≠ [] ∧ r.foldername.length ≤ 100 ∧
      (∀ c ∈ r.foldername, forbiddenChars.contains c = false) ∧
      r.id.length ≤ 50 := by
  intro r hr
  rcases stored with _ | v
  · exact validateRules_invariant JSVal.vundef r hr
  · cases v with
    | vstr s =>
      rcases hp : parse s with _ | pv
      · rw [show getRules parse (some (.vstr s)) =
            (match parse s with
             | none => DEFAULT_RULES
             | some v => validateRules v) from rfl, hp] at hr
        exact default_rules_invariant r hr
      · rw [show getRules parse (some (.vstr s)) =
            (match parse s with
             | none => DEFAULT_RULES
             | some v => validateRules v) from rfl, hp] at hr
        exact validateRules_invariant pv r hr
    | vnum n => exact validateRules_invariant (JSVal.vnum n) r hr
    | vbool b => exact validateRules_invariant (JSVal.vbool b) r hr
    | vnull => exact validateRules_invariant JSVal.vnull r hr
    | vundef => exact validateRules_invariant JSVal.vundef r hr
    | varr es => exact validateRules_invariant (JSVal.varr es) r hr
    | vobj a b c => exact validateRules_invariant (JSVal.vobj a b c) r hr

/-- Claim C10 witness: the invariant instantiated at the first default rule,
returned when nothing is stored. -/
theorem c10_getRules_invariant_witness :
    (⟨str "default-1", str "jpg,jpeg,gif,png,webp,svg",
        str "images"⟩ : Rule).extension ≠ [] ∧
      (⟨str "default-1", str "jpg,jpeg,gif,png,webp,svg",
          str "images"⟩ : Rule).extension.length ≤ 200 ∧
      (⟨str "default-1", str "jpg,jpeg,gif,png,webp,svg",
          str "images"⟩ : Rule).extension.all isPatternChar = true ∧
      (⟨str "default-1", str "jpg,jpeg,gif,png,webp,svg",
          str "images"⟩ : Rule).foldername ≠ [] ∧
      (⟨str "default-1", str "jpg,jpeg,gif,png,webp,svg",
          str "images"⟩ : Rule).foldername.length ≤ 100 ∧
      forbiddenChars.contains 'i' = false ∧
      (⟨str "default-1", str "jpg,jpeg,gif,png,webp,svg",
          str "images"⟩ : Rule).id.length ≤ 50 :=
  have h := c10_getRules_invariant (fun _ => none) none
    ⟨str "default-1", str "jpg,jpeg,gif,png,webp,svg", str "images"⟩
    (by decide)
  ⟨h.1, h.2.1, h.2.2.1, h.2.2.2.1, h.2.2.2.2.1,
    h.2.2.2.2.2.1 'i' (by decide), h.2.2.2.2.2.2⟩

end DS
